import Mathlib

/-!
Verification of the Byte Pair Encoding implementation in
`src/bpe_implementation.py` against its natural-language specification.

The Python code is shallowly embedded: each Python function becomes a Lean
definition of the same name; a prepared corpus `List[List[str]]` becomes
`List (List String)`, a symbol pair `Tuple[str, str]` becomes
`String × String`, a `Counter` becomes an insertion-ordered association
list `List (Pair × Nat)` (first-occurrence order, which is exactly the
iteration order of a Python `Counter`/`dict`), and a `Dict[str, int]`
becomes an association list updated in place.  `num_merges : int` is
embedded as `Int`; `range(n)` iterates `n.toNat` times, matching Python
(`range` of a negative number is empty).  A Python function that can in
principle raise is given an `Except String` result type; the embedded
bodies show which paths (if any) actually raise.
-/

/-- A pair of adjacent symbols, as the Python `Tuple[str, str]`. -/
abbrev Pair := String × String

/-- Python `list(word) + ['</w>']`: the characters of the word, each as a
one-character symbol, followed by the end-of-word marker. -/
def prepare_word (word : String) : List String :=
  word.toList.map Char.toString ++ ["</w>"]

/-- Python `prepare_corpus`: add the end-of-word token to each word
(`[list(word) + ['</w>'] for word in corpus]`). -/
def prepare_corpus (corpus : List String) : List (List String) :=
  corpus.map prepare_word

/-- One `Counter` update step: increment the count of `p`, keeping the
first-insertion order of keys (as a Python `Counter` does). -/
def bump (l : List (Pair × Nat)) (p : Pair) : List (Pair × Nat) :=
  match l with
  | [] => [(p, 1)]
  | (q, c) :: rest => if q = p then (q, c + 1) :: rest else (q, c) :: bump rest p

/-- Python `get_pair_counts`: for each word, `pairs.update(zip(word, word[1:]))`.
The resulting association list carries each distinct adjacent pair with its
frequency, keys in first-occurrence order. -/
def get_pair_counts (corpus : List (List String)) : List (Pair × Nat) :=
  corpus.foldl (fun acc word => (word.zip word.tail).foldl bump acc) []

/-- The per-word loop of `merge_pair`, indices and all:
`while i < len(word): if i < len(word) - 1 and (word[i], word[i+1]) == pair:
append the concatenation and advance by 2, else append `word[i]` and advance
by 1`.  The function returns the part of `new_word` produced from index `i`
on. -/
def mergePass (pair : Pair) (word : List String) (i : Nat) : List String :=
  if h : i < word.length then
    if i + 1 < word.length ∧ (word.get ⟨i, h⟩, word.getD (i + 1) "") = pair then
      (pair.1 ++ pair.2) :: mergePass pair word (i + 2)
    else
      word.get ⟨i, h⟩ :: mergePass pair word (i + 1)
  else []
termination_by word.length - i

/-- Python `merge_pair`: rewrite every word of the corpus with the pair collapsed,
running the per-word scan from index 0. -/
def merge_pair (corpus : List (List String)) (pair : Pair) : List (List String) :=
  corpus.map (fun word => mergePass pair word 0)

/-- The greedy left-to-right replacement pass exactly as the specification
words it: scan left to right; whenever the current and next symbol equal the
selected pair, replace both with one new symbol equal to their concatenation
and advance by 2; otherwise keep the current symbol and advance by 1. -/
def mergeWordSpec (pair : Pair) : List String → List String
  | a :: b :: rest =>
    if (a, b) = pair then (a ++ b) :: mergeWordSpec pair rest
    else a :: mergeWordSpec pair (b :: rest)
  | w => w

/-- Python `pair_counts.most_common(1)[0]` for a nonempty counter: `most_common`
stably sorts by descending count, so its head is the first key (in insertion
order) attaining the maximum count — which is what `List.argmax` on the
insertion-ordered association list returns (`argmax` keeps the earlier
element on ties). -/
def most_common_head (counts : List (Pair × Nat)) : Option (Pair × Nat) :=
  counts.argmax Prod.snd

/-- The `for _ in range(num_merges)` loop of `byte_pair_encoding`:
count pairs, stop early when the counter is empty, otherwise record the best
pair and rewrite the corpus. -/
def bpeLoop : Nat → List (List String) → List Pair → List (List String) × List Pair
  | 0, corpus, merges => (corpus, merges)
  | n + 1, corpus, merges =>
    match most_common_head (get_pair_counts corpus) with
    | none => (corpus, merges)
    | some best => bpeLoop n (merge_pair corpus best.1) (merges ++ [best.1])

/-- Python `byte_pair_encoding`: prepare the corpus and run up to `num_merges`
merge steps.  The body of the Python function contains no `raise` and no
input validation, so the embedded function never returns `Except.error`. -/
def byte_pair_encoding (corpus : List String) (num_merges : Int) :
    Except String (List (List String) × List Pair) :=
  Except.ok (bpeLoop num_merges.toNat (prepare_corpus corpus) [])

/-- In-place dictionary insertion: overwrite the value if the key is
present (keeping its position, as a Python `dict` does), else append. -/
def dictInsert (l : List (String × Nat)) (k : String) (v : Nat) : List (String × Nat) :=
  match l with
  | [] => [(k, v)]
  | (k', v') :: rest => if k' = k then (k', v) :: rest else (k', v') :: dictInsert rest k v

/-- The dict comprehension of `build_bpe_vocab`, rank `i` onward:
insert `''.join(pair) : i` for each remaining pair. -/
def buildVocabFrom (i : Nat) : List Pair → List (String × Nat) → List (String × Nat)
  | [], d => d
  | p :: rest, d => buildVocabFrom (i + 1) rest (dictInsert d (p.1 ++ p.2) i)

/-- Python `build_bpe_vocab`: `{''.join(pair): i for i, pair in enumerate(merges)}`. -/
def build_bpe_vocab (merges : List Pair) : List (String × Nat) :=
  buildVocabFrom 0 merges []

/-- Helper `get_pairs` inside `encode_word`: the adjacent pairs of the word
(`zip(word, word[1:])`; Python wraps them in a `set`, which only affects
which of several equal-key pairs `min` may return, not the encoder's
observable behaviour — see `bestPairAll`). -/
def get_pairs (word : List String) : List Pair :=
  word.zip word.tail

/-- The key of `min(pairs, key=...)`: `merges.index(pair)` when the pair is
in `merges`, `float('inf')` otherwise.  Infinity is embedded as
`merges.length`, a value strictly larger than every actual index. -/
def keyRank (merges : List Pair) (p : Pair) : Nat :=
  if p ∈ merges then merges.indexOf p else merges.length

/-- Selection `best_pair = min(pairs, key=...)`.  Distinct pairs that are in `merges`
have distinct keys, so ties can only occur between pairs not in `merges`
(all with the infinite key); in that case the loop breaks whichever one is
returned, so taking the first (as `argmin` does) is observably equal to
Python's set-order `min`. -/
def bestPairAll (merges : List Pair) (word : List String) : Option Pair :=
  (get_pairs word).argmin (keyRank merges)

/-- Total number of pair occurrences recorded in a counter. -/
def totalCount (l : List (Pair × Nat)) : Nat :=
  (l.map Prod.snd).sum

/-- The underlying text of a word: the characters of all its symbols, in
order. -/
def textOf (word : List String) : List Char :=
  (word.map String.toList).flatten

/-! ### Basic facts about symbols, pairs and the greedy pass -/

theorem toList_append (a b : String) : (a ++ b).toList = a.toList ++ b.toList := rfl

theorem get_pairs_cons (a b : String) (rest : List String) :
    get_pairs (a :: b :: rest) = (a, b) :: get_pairs (b :: rest) := by
  simp [get_pairs]

theorem get_pairs_eq_nil {w : List String} : get_pairs w = [] ↔ w.length ≤ 1 := by
  match w with
  | [] => simp [get_pairs]
  | [a] => simp [get_pairs]
  | a :: b :: rest =>
    rw [get_pairs_cons]
    simp

theorem mergeWordSpec_length_le (pair : Pair) (w : List String) :
    (mergeWordSpec pair w).length ≤ w.length := by
  induction w using mergeWordSpec.induct pair with
  | case1 a b rest h ih =>
    simp only [mergeWordSpec, if_pos h, List.length_cons] at ih ⊢
    omega
  | case2 a b rest h ih =>
    simp only [mergeWordSpec, if_neg h, List.length_cons] at ih ⊢
    omega
  | case3 w h3 =>
    match w, h3 with
    | [], _ => exact Nat.le_refl _
    | [a], _ => exact Nat.le_refl _
    | a :: b :: rest, h3 => exact absurd rfl (fun hh => h3 a b rest hh)

theorem mergeWordSpec_length_lt (pair : Pair) (w : List String)
    (hp : pair ∈ get_pairs w) : (mergeWordSpec pair w).length < w.length := by
  induction w using mergeWordSpec.induct pair with
  | case1 a b rest h ih =>
    have hle := mergeWordSpec_length_le pair rest
    simp only [mergeWordSpec, if_pos h, List.length_cons]
    omega
  | case2 a b rest h ih =>
    rw [get_pairs_cons] at hp
    rcases List.mem_cons.mp hp with h1 | h2
    · exact absurd h1.symm h
    · have hlt := ih h2
      simp only [mergeWordSpec, if_neg h, List.length_cons] at hlt ⊢
      omega
  | case3 w h3 =>
    match w, h3 with
    | [], _ => simp [get_pairs] at hp
    | [a], _ => simp [get_pairs] at hp
    | a :: b :: rest, h3 => exact absurd rfl (fun hh => h3 a b rest hh)

theorem mergeWordSpec_ne_nil (pair : Pair) {w : List String} (h : w ≠ []) :
    mergeWordSpec pair w ≠ [] := by
  induction w using mergeWordSpec.induct pair with
  | case1 a b rest hp ih => simp [mergeWordSpec, if_pos hp]
  | case2 a b rest hp ih => simp [mergeWordSpec, if_neg hp]
  | case3 w h3 =>
    match w, h3 with
    | [], _ => exact absurd rfl h
    | [a], _ => simp [mergeWordSpec]
    | a :: b :: rest, h3 => exact absurd rfl (fun hh => h3 a b rest hh)

theorem textOf_cons (s : String) (w : List String) :
    textOf (s :: w) = s.toList ++ textOf w := by
  simp [textOf]

theorem textOf_mergeWordSpec (pair : Pair) (w : List String) :
    textOf (mergeWordSpec pair w) = textOf w := by
  induction w using mergeWordSpec.induct pair with
  | case1 a b rest h ih =>
    simp only [mergeWordSpec, if_pos h, textOf_cons, ih, toList_append, List.append_assoc]
  | case2 a b rest h ih =>
    simp only [mergeWordSpec, if_neg h, textOf_cons] at ih ⊢
    rw [ih]
  | case3 w h3 =>
    match w, h3 with
    | [], _ => rfl
    | [a], _ => rfl
    | a :: b :: rest, h3 => exact absurd rfl (fun hh => h3 a b rest hh)

theorem isInfix_append_right {m l l' : List Char} (h : m <:+: l) : m <:+: l ++ l' := by
  obtain ⟨s, t, rfl⟩ := h
  exact ⟨s, t ++ l', by simp⟩

theorem isInfix_append_left {m l l' : List Char} (h : m <:+: l) : m <:+: l' ++ l := by
  obtain ⟨s, t, rfl⟩ := h
  exact ⟨l' ++ s, t, by simp⟩

theorem marker_mergeWordSpec (pair : Pair) (m : List Char) (w : List String)
    (h : ∃ s ∈ w, m <:+: s.toList) : ∃ s ∈ mergeWordSpec pair w, m <:+: s.toList := by
  induction w using mergeWordSpec.induct pair with
  | case1 a b rest hp ih =>
    obtain ⟨s, hs, hm⟩ := h
    simp only [mergeWordSpec, if_pos hp]
    rcases List.mem_cons.mp hs with heq | hs'
    · subst heq
      exact ⟨s ++ b, List.mem_cons_self _ _, by rw [toList_append]; exact isInfix_append_right hm⟩
    rcases List.mem_cons.mp hs' with heq | hs''
    · subst heq
      exact ⟨a ++ s, List.mem_cons_self _ _, by rw [toList_append]; exact isInfix_append_left hm⟩
    · obtain ⟨t, ht, htm⟩ := ih ⟨s, hs'', hm⟩
      exact ⟨t, List.mem_cons_of_mem _ ht, htm⟩
  | case2 a b rest hp ih =>
    obtain ⟨s, hs, hm⟩ := h
    simp only [mergeWordSpec, if_neg hp]
    rcases List.mem_cons.mp hs with heq | hs'
    · subst heq
      exact ⟨s, List.mem_cons_self _ _, hm⟩
    · obtain ⟨t, ht, htm⟩ := ih ⟨s, hs', hm⟩
      exact ⟨t, List.mem_cons_of_mem _ ht, htm⟩
  | case3 w h3 =>
    match w, h3 with
    | [], _ => exact h
    | [a], _ => exact h
    | a :: b :: rest, h3 => exact absurd rfl (fun hh => h3 a b rest hh)

theorem mergePass_eq_drop (pair : Pair) (word : List String) (i : Nat) :
    mergePass pair word i = mergeWordSpec pair (word.drop i) := by
  obtain ⟨p1, p2⟩ := pair
  induction i using mergePass.induct (p1, p2) word with
  | case1 i h hc ih =>
    rw [mergePass, dif_pos h, if_pos hc]
    rw [List.drop_eq_getElem_cons h, List.drop_eq_getElem_cons hc.1]
    have hg : word.getD (i + 1) "" = word[i + 1] := List.getD_eq_getElem word "" hc.1
    have hpair : (word[i], word[i + 1]) = (p1, p2) := by
      have h2 := hc.2
      rw [hg] at h2
      simpa [List.get_eq_getElem] using h2
    have e1 : word[i] = p1 := congrArg Prod.fst hpair
    have e2 : word[i + 1] = p2 := congrArg Prod.snd hpair
    simp only [mergeWordSpec, if_pos hpair]
    rw [e1, e2, ih]
  | case2 i h hc ih =>
    rw [mergePass, dif_pos h]
    rw [if_neg hc]
    rw [List.drop_eq_getElem_cons h]
    by_cases h2 : i + 1 < word.length
    · rw [List.drop_eq_getElem_cons h2] at ih ⊢
      have hg : word.getD (i + 1) "" = word[i + 1] := List.getD_eq_getElem word "" h2
      have hne : (word[i], word[i + 1]) ≠ (p1, p2) := by
        intro hcon
        refine hc ⟨h2, ?_⟩
        rw [hg, List.get_eq_getElem]
        exact hcon
      simp only [mergeWordSpec, if_neg hne]
      rw [List.get_eq_getElem, ih]
    · have hdrop : word.drop (i + 1) = [] := List.drop_eq_nil_of_le (Nat.le_of_not_lt h2)
      rw [hdrop] at ih ⊢
      rw [List.get_eq_getElem, ih]
      simp [mergeWordSpec]
  | case3 i h =>
    rw [mergePass]
    simp [h, List.drop_eq_nil_of_le (Nat.le_of_not_lt h), mergeWordSpec]

theorem mergePass_zero (pair : Pair) (w : List String) :
    mergePass pair w 0 = mergeWordSpec pair w := by
  simpa using mergePass_eq_drop pair w 0

theorem mergePass_length_le (pair : Pair) (w : List String) :
    (mergePass pair w 0).length ≤ w.length := by
  rw [mergePass_zero]
  exact mergeWordSpec_length_le pair w

theorem mergePass_length_lt (pair : Pair) (w : List String) (hp : pair ∈ get_pairs w) :
    (mergePass pair w 0).length < w.length := by
  rw [mergePass_zero]
  exact mergeWordSpec_length_lt pair w hp

/-! ### The word encoder -/

/-- The `while True` loop of `encode_word`: compute the adjacent pairs
(`if not pairs: break` is the `none` case, since `min` over a nonempty set
always returns an element), pick `best_pair`, break if it is not in
`merges`, otherwise run the same left-to-right merge pass as `merge_pair`
and loop.  Terminates because each executed merge strictly shrinks the
word. -/
def encodeLoop (merges : List Pair) (word : List String) : List String :=
  match hb : bestPairAll merges word with
  | none => word
  | some bp =>
    if bp ∈ merges then encodeLoop merges (mergePass bp word 0) else word
termination_by word.length
decreasing_by
  exact mergePass_length_lt bp word (List.argmin_mem (Option.mem_def.mpr hb))

/-- Python `encode_word`: split the word into characters, add the end-of-word
marker, and run the merge loop. -/
def encode_word (word : String) (merges : List Pair) : List String :=
  encodeLoop merges (prepare_word word)

/-- The same loop with explicit fuel: `none` means the iteration budget ran
out before the loop reached one of its `break`s. -/
def encodeSteps (merges : List Pair) : Nat → List String → Option (List String)
  | 0, _ => none
  | fuel + 1, word =>
    match bestPairAll merges word with
    | none => some word
    | some bp =>
      if bp ∈ merges then encodeSteps merges fuel (mergePass bp word 0) else some word

theorem encodeLoop_eq_exit {merges : List Pair} {word : List String}
    (h : bestPairAll merges word = none) : encodeLoop merges word = word := by
  rw [encodeLoop]
  split
  · rfl
  · next bp heq => rw [h] at heq; exact absurd heq (by simp)

theorem encodeLoop_eq_break {merges : List Pair} {word : List String} {bp : Pair}
    (h : bestPairAll merges word = some bp) (hm : bp ∉ merges) :
    encodeLoop merges word = word := by
  rw [encodeLoop]
  split
  · rfl
  · next bp' heq =>
    rw [h] at heq
    have : bp = bp' := by injection heq
    subst this
    rw [if_neg hm]

theorem encodeLoop_eq_step {merges : List Pair} {word : List String} {bp : Pair}
    (h : bestPairAll merges word = some bp) (hm : bp ∈ merges) :
    encodeLoop merges word = encodeLoop merges (mergePass bp word 0) := by
  conv_lhs => rw [encodeLoop]
  split
  · next heq => rw [heq] at h; exact absurd h (by simp)
  · next bp' heq =>
    rw [h] at heq
    have : bp = bp' := by injection heq
    subst this
    rw [if_pos hm]

theorem encodeSteps_eq (merges : List Pair) :
    ∀ (fuel : Nat) (word : List String), word.length < fuel →
      encodeSteps merges fuel word = some (encodeLoop merges word) := by
  intro fuel
  induction fuel with
  | zero => intro word h; exact absurd h (Nat.not_lt_zero _)
  | succ fuel ih =>
    intro word h
    cases hb : bestPairAll merges word with
    | none =>
      simp only [encodeSteps, hb]
      rw [encodeLoop_eq_exit hb]
    | some bp =>
      by_cases hm : bp ∈ merges
      · have hmem : bp ∈ get_pairs word := List.argmin_mem (Option.mem_def.mpr hb)
        have hlt := mergePass_length_lt bp word hmem
        simp only [encodeSteps, hb]
        rw [if_pos hm, encodeLoop_eq_step hb hm]
        exact ih (mergePass bp word 0) (by omega)
      · simp only [encodeSteps, hb]
        rw [if_neg hm, encodeLoop_eq_break hb hm]

/-! ### Selection facts for the encoder -/

theorem keyRank_of_mem {merges : List Pair} {p : Pair} (h : p ∈ merges) :
    keyRank merges p = merges.indexOf p := by
  simp [keyRank, h]

theorem keyRank_of_not_mem {merges : List Pair} {p : Pair} (h : p ∉ merges) :
    keyRank merges p = merges.length := by
  simp [keyRank, h]

theorem mem_of_keyRank_lt {merges : List Pair} {p : Pair}
    (h : keyRank merges p < merges.length) : p ∈ merges := by
  by_contra hn
  rw [keyRank_of_not_mem hn] at h
  exact Nat.lt_irrefl _ h

theorem bestPair_mem_word {merges : List Pair} {word : List String} {bp : Pair}
    (h : bestPairAll merges word = some bp) : bp ∈ get_pairs word :=
  List.argmin_mem (Option.mem_def.mpr h)

theorem bestPair_min {merges : List Pair} {word : List String} {bp q : Pair}
    (h : bestPairAll merges word = some bp) (hq : q ∈ get_pairs word) :
    keyRank merges bp ≤ keyRank merges q :=
  List.le_of_mem_argmin hq (Option.mem_def.mpr h)

theorem bestPair_isSome {merges : List Pair} {word : List String} {q : Pair}
    (hq : q ∈ get_pairs word) : ∃ bp, bestPairAll merges word = some bp := by
  cases hb : bestPairAll merges word with
  | none =>
    have : get_pairs word = [] := List.argmin_eq_none.mp hb
    rw [this] at hq
    exact absurd hq (List.not_mem_nil q)
  | some bp => exact ⟨bp, rfl⟩

/-! ### Counting facts -/

theorem totalCount_bump (l : List (Pair × Nat)) (p : Pair) :
    totalCount (bump l p) = totalCount l + 1 := by
  induction l with
  | nil => rfl
  | cons x rest ih =>
    obtain ⟨q, c⟩ := x
    by_cases h : q = p
    · simp [bump, h, totalCount]
      omega
    · simp [bump, h, totalCount] at ih ⊢
      omega

theorem bump_ne_nil (l : List (Pair × Nat)) (p : Pair) : bump l p ≠ [] := by
  cases l with
  | nil => simp [bump]
  | cons x rest =>
    obtain ⟨q, c⟩ := x
    by_cases h : q = p <;> simp [bump, h]

theorem totalCount_foldl_bump (ps : List Pair) :
    ∀ acc, totalCount (ps.foldl bump acc) = totalCount acc + ps.length := by
  induction ps with
  | nil => intro acc; simp
  | cons p rest ih =>
    intro acc
    rw [List.foldl_cons, ih, totalCount_bump]
    simp
    omega

theorem foldl_bump_eq_nil {ps : List Pair} {acc : List (Pair × Nat)} :
    ps.foldl bump acc = [] ↔ acc = [] ∧ ps = [] := by
  induction ps generalizing acc with
  | nil => simp
  | cons p rest ih =>
    rw [List.foldl_cons, ih]
    simp [bump_ne_nil]

theorem zip_tail_length (w : List String) : (w.zip w.tail).length = w.length - 1 := by
  simp [List.length_zip, List.length_tail]

theorem totalCount_counts_aux (corpus : List (List String)) :
    ∀ acc, totalCount (corpus.foldl (fun acc word => (word.zip word.tail).foldl bump acc) acc) =
      totalCount acc + (corpus.map (fun w => w.length - 1)).sum := by
  induction corpus with
  | nil => intro acc; simp
  | cons w rest ih =>
    intro acc
    rw [List.foldl_cons, ih, totalCount_foldl_bump, zip_tail_length]
    simp
    omega

theorem totalCount_get_pair_counts (corpus : List (List String)) :
    totalCount (get_pair_counts corpus) = (corpus.map (fun w => w.length - 1)).sum := by
  have := totalCount_counts_aux corpus []
  simpa [get_pair_counts, totalCount] using this

theorem counts_eq_nil_aux (corpus : List (List String)) :
    ∀ acc, corpus.foldl (fun acc word => (word.zip word.tail).foldl bump acc) acc = [] ↔
      (acc = [] ∧ ∀ w ∈ corpus, w.zip w.tail = []) := by
  induction corpus with
  | nil => intro acc; simp
  | cons w rest ih =>
    intro acc
    rw [List.foldl_cons, ih, foldl_bump_eq_nil]
    constructor
    · rintro ⟨⟨h1, h2⟩, h3⟩
      refine ⟨h1, fun v hv => ?_⟩
      rcases List.mem_cons.mp hv with heq | hv'
      · subst heq; exact h2
      · exact h3 v hv'
    · rintro ⟨h1, h2⟩
      exact ⟨⟨h1, h2 w (List.mem_cons_self _ _)⟩, fun v hv => h2 v (List.mem_cons_of_mem _ hv)⟩

theorem get_pair_counts_eq_nil (corpus : List (List String)) :
    get_pair_counts corpus = [] ↔ ∀ w ∈ corpus, w.length ≤ 1 := by
  rw [get_pair_counts, counts_eq_nil_aux]
  constructor
  · rintro ⟨-, h⟩ w hw
    exact get_pairs_eq_nil.mp (h w hw)
  · intro h
    exact ⟨rfl, fun w hw => get_pairs_eq_nil.mpr (h w hw)⟩

/-! ### Training-loop facts -/

theorem bpeLoop_merges (n : Nat) :
    ∀ corpus merges,
      ((bpeLoop n corpus merges).2.length ≤ merges.length + n) ∧
      ((bpeLoop n corpus merges).2.length = merges.length + n ∨
        get_pair_counts (bpeLoop n corpus merges).1 = []) := by
  induction n with
  | zero => intro c ms; simp [bpeLoop]
  | succ n ih =>
    intro c ms
    cases hmc : most_common_head (get_pair_counts c) with
    | none =>
      have hnil : get_pair_counts c = [] := List.argmax_eq_none.mp hmc
      simp only [bpeLoop, hmc]
      exact ⟨by omega, Or.inr hnil⟩
    | some best =>
      simp only [bpeLoop, hmc]
      obtain ⟨h1, h2⟩ := ih (merge_pair c best.1) (ms ++ [best.1])
      rw [List.length_append] at h1 h2
      simp only [List.length_cons, List.length_nil] at h1 h2
      refine ⟨by omega, ?_⟩
      rcases h2 with h2 | h2
      · exact Or.inl (by omega)
      · exact Or.inr h2

theorem merge_pair_length (corpus : List (List String)) (pair : Pair) :
    (merge_pair corpus pair).length = corpus.length := by
  simp [merge_pair]

theorem merge_pair_getElem? (corpus : List (List String)) (pair : Pair) (i : Nat) :
    (merge_pair corpus pair)[i]? = corpus[i]?.map (fun w => mergePass pair w 0) := by
  simp [merge_pair, List.getElem?_map]

theorem merge_pair_text (corpus : List (List String)) (pair : Pair) (i : Nat) :
    ((merge_pair corpus pair)[i]?).map textOf = (corpus[i]?).map textOf := by
  rw [merge_pair_getElem?]
  cases corpus[i]? with
  | none => rfl
  | some w => simp [Option.map, mergePass_zero, textOf_mergeWordSpec]

theorem bpeLoop_corpus_text (n : Nat) :
    ∀ corpus merges,
      (bpeLoop n corpus merges).1.length = corpus.length ∧
      ∀ i : Nat, ((bpeLoop n corpus merges).1[i]?).map textOf = (corpus[i]?).map textOf := by
  induction n with
  | zero => intro c ms; simp [bpeLoop]
  | succ n ih =>
    intro c ms
    cases hmc : most_common_head (get_pair_counts c) with
    | none => simp [bpeLoop, hmc]
    | some best =>
      simp only [bpeLoop, hmc]
      obtain ⟨hl, ht⟩ := ih (merge_pair c best.1) (ms ++ [best.1])
      refine ⟨by rw [hl, merge_pair_length], fun i => ?_⟩
      rw [ht i, merge_pair_text]

/-! ### Text of prepared words -/

theorem textOf_map_toString (cs : List Char) : textOf (cs.map Char.toString) = cs := by
  induction cs with
  | nil => rfl
  | cons c rest ih =>
    rw [List.map_cons, textOf_cons, ih]
    rfl

theorem textOf_append (v w : List String) : textOf (v ++ w) = textOf v ++ textOf w := by
  simp [textOf]

theorem textOf_prepare_word (w : String) :
    textOf (prepare_word w) = w.toList ++ "</w>".toList := by
  rw [prepare_word, textOf_append, textOf_map_toString]
  simp [textOf]

/-! ### Vocabulary facts -/

/-- Python `dict` lookup: the value stored at key `k`, if any. -/
def vlookup (d : List (String × Nat)) (k : String) : Option Nat :=
  match d with
  | [] => none
  | (k', v') :: rest => if k' = k then some v' else vlookup rest k

theorem vlookup_dictInsert_self (l : List (String × Nat)) (k : String) (v : Nat) :
    vlookup (dictInsert l k v) k = some v := by
  induction l with
  | nil => simp [dictInsert, vlookup]
  | cons x rest ih =>
    obtain ⟨k0, v0⟩ := x
    by_cases h : k0 = k
    · simp [dictInsert, h, vlookup]
    · simp [dictInsert, h, vlookup, ih]

theorem vlookup_dictInsert_other (l : List (String × Nat)) (k : String) (v : Nat)
    {k' : String} (h : k' ≠ k) : vlookup (dictInsert l k v) k' = vlookup l k' := by
  have hne : ¬k = k' := fun he => h he.symm
  induction l with
  | nil => simp [dictInsert, vlookup, hne]
  | cons x rest ih =>
    obtain ⟨k0, v0⟩ := x
    by_cases h0 : k0 = k
    · subst h0
      simp only [dictInsert, if_pos rfl, vlookup]
      rw [if_neg hne, if_neg hne]
    · by_cases h1 : k0 = k'
      · subst h1
        simp [dictInsert, h0, vlookup]
      · simp [dictInsert, h0, vlookup, h1, ih]

theorem length_dictInsert_le (l : List (String × Nat)) (k : String) (v : Nat) :
    (dictInsert l k v).length ≤ l.length + 1 := by
  induction l with
  | nil => simp [dictInsert]
  | cons x rest ih =>
    obtain ⟨k0, v0⟩ := x
    by_cases h : k0 = k
    · simp [dictInsert, h]
    · simp only [dictInsert, if_neg h, List.length_cons]
      omega

theorem dictInsert_fresh (l : List (String × Nat)) (k : String) (v : Nat)
    (h : ∀ e ∈ l, e.1 ≠ k) : dictInsert l k v = l ++ [(k, v)] := by
  induction l with
  | nil => rfl
  | cons x rest ih =>
    obtain ⟨k0, v0⟩ := x
    have hne : k0 ≠ k := h (k0, v0) (List.mem_cons_self _ _)
    rw [dictInsert]
    rw [if_neg hne]
    rw [ih (fun e he => h e (List.mem_cons_of_mem _ he))]
    rfl

theorem buildVocabFrom_vlookup_skip (rest : List Pair) :
    ∀ (i : Nat) (d : List (String × Nat)) (k : String),
      (∀ p ∈ rest, p.1 ++ p.2 ≠ k) →
      vlookup (buildVocabFrom i rest d) k = vlookup d k := by
  induction rest with
  | nil => intro i d k _; rfl
  | cons p rest' ih =>
    intro i d k h
    rw [buildVocabFrom]
    rw [ih (i + 1) _ k (fun q hq => h q (List.mem_cons_of_mem _ hq))]
    exact vlookup_dictInsert_other d _ i (fun he => h p (List.mem_cons_self _ _) he.symm)

theorem buildVocabFrom_append (xs : List Pair) :
    ∀ (ys : List Pair) (i : Nat) (d : List (String × Nat)),
      buildVocabFrom i (xs ++ ys) d = buildVocabFrom (i + xs.length) ys (buildVocabFrom i xs d) := by
  induction xs with
  | nil => intro ys i d; simp [buildVocabFrom]
  | cons x xs' ih =>
    intro ys i d
    rw [List.cons_append, buildVocabFrom, buildVocabFrom, ih]
    congr 1
    simp
    omega

theorem buildVocabFrom_length_le (rest : List Pair) :
    ∀ (i : Nat) (d : List (String × Nat)),
      (buildVocabFrom i rest d).length ≤ d.length + rest.length := by
  induction rest with
  | nil => intro i d; simp [buildVocabFrom]
  | cons p rest' ih =>
    intro i d
    rw [buildVocabFrom]
    have h1 := ih (i + 1) (dictInsert d (p.1 ++ p.2) i)
    have h2 := length_dictInsert_le d (p.1 ++ p.2) i
    simp only [List.length_cons]
    omega

/-- Ranked projection of a merge-rule list: the entries the dict
comprehension appends when no key collisions occur. -/
def rankedFrom (i : Nat) : List Pair → List (String × Nat)
  | [] => []
  | p :: rest => (p.1 ++ p.2, i) :: rankedFrom (i + 1) rest

theorem buildVocabFrom_fresh (rest : List Pair) :
    ∀ (i : Nat) (d : List (String × Nat)),
      (∀ p ∈ rest, ∀ e ∈ d, e.1 ≠ p.1 ++ p.2) →
      (rest.map (fun p => p.1 ++ p.2)).Nodup →
      buildVocabFrom i rest d = d ++ rankedFrom i rest := by
  induction rest with
  | nil => intro i d _ _; simp [buildVocabFrom, rankedFrom]
  | cons p rest' ih =>
    intro i d hfresh hnd
    rw [buildVocabFrom, rankedFrom]
    rw [dictInsert_fresh d _ i (fun e he => hfresh p (List.mem_cons_self _ _) e he)]
    rw [List.map_cons, List.nodup_cons] at hnd
    rw [ih (i + 1) _ ?_ hnd.2]
    · simp
    · intro q hq e he
      rcases List.mem_append.mp he with he' | he'
      · exact hfresh q (List.mem_cons_of_mem _ hq) e he'
      · rcases List.mem_singleton.mp he' with rfl
        intro hcon
        have hcon' : p.1 ++ p.2 = q.1 ++ q.2 := hcon
        apply hnd.1
        rw [hcon']
        exact List.mem_map_of_mem (fun p => p.1 ++ p.2) hq

theorem rankedFrom_snd (rest : List Pair) :
    ∀ i : Nat, (rankedFrom i rest).map Prod.snd = List.range' i rest.length := by
  induction rest with
  | nil => intro i; rfl
  | cons p rest' ih =>
    intro i
    rw [rankedFrom, List.map_cons, ih, List.length_cons, List.range'_succ]

/-! ### Loop invariants of the encoder -/

theorem encodeLoop_preserves (merges : List Pair) (w : List String) :
    w ≠ [] → (∃ s ∈ w, "</w>".toList <:+: s.toList) →
      encodeLoop merges w ≠ [] ∧
      ∃ s ∈ encodeLoop merges w, "</w>".toList <:+: s.toList := by
  induction w using encodeLoop.induct merges with
  | case1 word hb =>
    intro hne hmark
    rw [encodeLoop_eq_exit hb]
    exact ⟨hne, hmark⟩
  | case2 word bp hb hm ih =>
    intro hne hmark
    rw [encodeLoop_eq_step hb hm]
    refine ih ?_ ?_
    · rw [mergePass_zero]
      exact mergeWordSpec_ne_nil bp hne
    · rw [mergePass_zero]
      exact marker_mergeWordSpec bp _ word hmark
  | case3 word bp hb hm =>
    intro hne hmark
    rw [encodeLoop_eq_break hb hm]
    exact ⟨hne, hmark⟩

/-! ### The claims -/

/-- Claim C1 (counterexample): with a negative merge count the source does
not reject the input: `byte_pair_encoding(["ab"], -1)` returns the normal
result `(prepare_corpus(["ab"]), [])` instead of failing — `range` of a
negative number is simply empty and no validation is performed. -/
theorem byte_pair_encoding_negative_no_error :
    byte_pair_encoding ["ab"] (-1) = Except.ok ([["a", "b", "</w>"]], []) := rfl

/-- Claim C1 (amended): if `num_merges` is negative, `byte_pair_encoding`
raises no error; it performs no merge work and returns the prepared corpus
together with an empty merge list, exactly as for `num_merges = 0`. -/
theorem byte_pair_encoding_negative (corpus : List String) (n : Int) (h : n < 0) :
    byte_pair_encoding corpus n = Except.ok (prepare_corpus corpus, []) := by
  rw [byte_pair_encoding, Int.toNat_of_nonpos (le_of_lt h)]
  rfl

/-- Witness for the amended claim C1 at `corpus = ["ab"]`, `n = -2`. -/
theorem byte_pair_encoding_negative_witness :
    byte_pair_encoding ["ab"] (-2) = Except.ok (prepare_corpus ["ab"], []) :=
  byte_pair_encoding_negative ["ab"] (-2) (by decide)

/-- Claim C3: `merge_pair` rewrites every word of the corpus (same words,
same order) by the single left-to-right non-overlapping greedy pass the
specification describes: when the current and next symbol equal the pair,
both are replaced by one symbol equal to their concatenation and the scan
advances by 2 (so a consumed symbol is never reconsidered); otherwise the
current symbol is kept and the scan advances by 1. -/
theorem merge_pair_is_greedy_pass (corpus : List (List String)) (pair : Pair) :
    merge_pair corpus pair = corpus.map (mergeWordSpec pair) := by
  simp [merge_pair, mergePass_zero]

/-- Claim C6: monotonic shrinkage — for each word of the corpus,
`merge_pair` never increases its symbol count, and strictly decreases it
when the pair occurs as an adjacent pair in that word. -/
theorem merge_pair_monotonic_shrinkage (corpus : List (List String)) (pair : Pair)
    (i : Nat) (h : i < corpus.length) :
    ((merge_pair corpus pair).getD i []).length ≤ (corpus.getD i []).length ∧
    (pair ∈ get_pairs (corpus.getD i []) →
      ((merge_pair corpus pair).getD i []).length < (corpus.getD i []).length) := by
  have hc : corpus.getD i [] = corpus[i] := List.getD_eq_getElem corpus [] h
  have hlen : i < (merge_pair corpus pair).length := by
    rw [merge_pair_length]; exact h
  have hm : (merge_pair corpus pair).getD i [] = mergePass pair corpus[i] 0 := by
    rw [List.getD_eq_getElem _ [] hlen]
    simp [merge_pair]
  rw [hc, hm]
  exact ⟨mergePass_length_le pair _, fun hp => mergePass_length_lt pair _ hp⟩

/-- Witness for C6 at the corpus `[["a", "b", "</w>"]]` and pair
`("a", "b")`, which occurs in the word: the word strictly shrinks. -/
theorem merge_pair_monotonic_shrinkage_witness :
    ((merge_pair [["a", "b", "</w>"]] ("a", "b")).getD 0 []).length <
      (([["a", "b", "</w>"]] : List (List String)).getD 0 []).length :=
  (merge_pair_monotonic_shrinkage [["a", "b", "</w>"]] ("a", "b") 0 (by decide)).2
    (by decide)

/-- Claim C5: the total of all counts in
`get_pair_counts(prepare_corpus(words))` equals the sum over the prepared
words of `wordLength - 1` (truncated at 0, so words of length 0 or 1
contribute nothing), and the table is empty exactly when no prepared word
is longer than one symbol. -/
theorem get_pair_counts_totals (words : List String) :
    totalCount (get_pair_counts (prepare_corpus words)) =
      ((prepare_corpus words).map (fun w => w.length - 1)).sum ∧
    (get_pair_counts (prepare_corpus words) = [] ↔
      ∀ w ∈ prepare_corpus words, w.length ≤ 1) :=
  ⟨totalCount_get_pair_counts _, get_pair_counts_eq_nil _⟩

/-- Claim C4: for `maxMerges ≥ 0` the training loop returns a normal
`(finalCorpus, merges)` result with `len(merges) ≤ maxMerges`, and equality
holds unless the loop stopped early with an empty pair-frequency table (in
which case the final corpus has an empty table). -/
theorem byte_pair_encoding_merge_count (corpus : List String) (n : Int) (h : 0 ≤ n) :
    ∃ fc ms, byte_pair_encoding corpus n = Except.ok (fc, ms) ∧
      (ms.length : Int) ≤ n ∧
      ((ms.length : Int) = n ∨ get_pair_counts fc = []) := by
  obtain ⟨h1, h2⟩ := bpeLoop_merges n.toNat (prepare_corpus corpus) []
  refine ⟨_, _, rfl, ?_, ?_⟩
  · simp only [List.length_nil, Nat.zero_add] at h1
    omega
  · simp only [List.length_nil, Nat.zero_add] at h2
    rcases h2 with h2 | h2
    · exact Or.inl (by omega)
    · exact Or.inr h2

/-- Witness for C4 at `corpus = ["ab"]`, `maxMerges = 1`. -/
theorem byte_pair_encoding_merge_count_witness :
    ∃ fc ms, byte_pair_encoding ["ab"] 1 = Except.ok (fc, ms) ∧
      (ms.length : Int) ≤ 1 ∧
      ((ms.length : Int) = 1 ∨ get_pair_counts fc = []) :=
  byte_pair_encoding_merge_count ["ab"] 1 (by decide)

/-- The derived `BEq` on pairs of strings agrees with the one induced by
decidable equality (both are lawful). -/
theorem pairBEq_eq : (instBEqProd : BEq Pair) = instBEqOfDecidableEq := by
  refine congrArg BEq.mk (funext fun a => funext fun b => ?_)
  by_cases h : a = b
  · subst h
    exact (beq_self_eq_true a).trans (decide_eq_true rfl).symm
  · exact (beq_eq_false_iff_ne.mpr h).trans (decide_eq_false h).symm

theorem indexOf_lt_length_pair {p : Pair} {l : List Pair} (h : p ∈ l) :
    l.indexOf p < l.length := by
  rw [pairBEq_eq]
  exact List.indexOf_lt_length.mpr h

theorem indexOf_inj_pair {l : List Pair} {p q : Pair} (hp : p ∈ l) (hq : q ∈ l)
    (h : l.indexOf p = l.indexOf q) : p = q := by
  rw [pairBEq_eq] at h
  exact (List.indexOf_inj hp hq).mp h

/-- Claim C2: priority correctness of the encoder's selection.  At any
iteration, (1) if pairs `P` and `Q` are both present in the word and occur
in `merges` at ranks `r < r'`, the selected pair is a present pair from
`merges` of rank at most `r` — never `Q`; (2) if `P` is a present pair of
minimal rank among the present pairs in `merges`, the iteration selects `P`
and merges it; (3) a pair not in `merges` is selected only when no present
pair is in `merges`, and then the loop breaks without merging anything. -/
theorem encode_word_priority (merges : List Pair) (word : List String) :
    (∀ P Q : Pair, P ∈ get_pairs word → Q ∈ get_pairs word →
      P ∈ merges → Q ∈ merges → merges.indexOf P < merges.indexOf Q →
      ∃ S, bestPairAll merges word = some S ∧ S ∈ merges ∧ S ∈ get_pairs word ∧
        merges.indexOf S ≤ merges.indexOf P ∧ S ≠ Q) ∧
    (∀ P : Pair, P ∈ get_pairs word → P ∈ merges →
      (∀ R ∈ get_pairs word, R ∈ merges → merges.indexOf P ≤ merges.indexOf R) →
      bestPairAll merges word = some P ∧
        encodeLoop merges word = encodeLoop merges (mergePass P word 0)) ∧
    (∀ S : Pair, bestPairAll merges word = some S → S ∉ merges →
      (∀ R ∈ get_pairs word, R ∉ merges) ∧ encodeLoop merges word = word) := by
  have key : ∀ P : Pair, P ∈ get_pairs word → P ∈ merges →
      ∃ S, bestPairAll merges word = some S ∧ S ∈ merges ∧ S ∈ get_pairs word ∧
        merges.indexOf S ≤ merges.indexOf P := by
    intro P hPw hPm
    obtain ⟨S, hS⟩ := @bestPair_isSome merges word P hPw
    have hkey := bestPair_min hS hPw
    rw [keyRank_of_mem hPm] at hkey
    have hPlt : merges.indexOf P < merges.length := indexOf_lt_length_pair hPm
    have hSm : S ∈ merges := mem_of_keyRank_lt (by omega)
    rw [keyRank_of_mem hSm] at hkey
    exact ⟨S, hS, hSm, bestPair_mem_word hS, hkey⟩
  refine ⟨?_, ?_, ?_⟩
  · intro P Q hPw hQw hPm hQm hrank
    obtain ⟨S, hS, hSm, hSw, hSle⟩ := key P hPw hPm
    refine ⟨S, hS, hSm, hSw, hSle, fun hSQ => ?_⟩
    subst hSQ
    omega
  · intro P hPw hPm hmin
    obtain ⟨S, hS, hSm, hSw, hSle⟩ := key P hPw hPm
    have hge := hmin S hSw hSm
    have : S = P := indexOf_inj_pair hSm hPm (by omega)
    subst this
    exact ⟨hS, encodeLoop_eq_step hS hSm⟩
  · intro S hS hSnm
    have hbreak := encodeLoop_eq_break hS hSnm
    refine ⟨fun R hRw hRm => ?_, hbreak⟩
    have hkey := bestPair_min hS hRw
    rw [keyRank_of_not_mem hSnm, keyRank_of_mem hRm] at hkey
    have : merges.indexOf R < merges.length := indexOf_lt_length_pair hRm
    omega

/-- Witness for C2 (first conjunct) at `merges = [("a","b"), ("b","</w>")]`
and word `["a", "b", "</w>"]`: both pairs are present, `("a","b")` has the
lower rank, and it is selected, never `("b","</w>")`. -/
theorem encode_word_priority_witness :
    ∃ S, bestPairAll [("a", "b"), ("b", "</w>")] ["a", "b", "</w>"] = some S ∧
      S ∈ ([("a", "b"), ("b", "</w>")] : List Pair) ∧
      S ∈ get_pairs ["a", "b", "</w>"] ∧
      ([("a", "b"), ("b", "</w>")] : List Pair).indexOf S ≤
        ([("a", "b"), ("b", "</w>")] : List Pair).indexOf ("a", "b") ∧
      S ≠ ("b", "</w>") :=
  (encode_word_priority [("a", "b"), ("b", "</w>")] ["a", "b", "</w>"]).1
    ("a", "b") ("b", "</w>") (by decide) (by decide) (by decide) (by decide) (by decide)

/-- Claim C7: `build_bpe_vocab` maps the concatenated string of the rule at
rank `i` to `i` when no later rank produces the same string (so on a
collision the later rank overwrites the earlier, last-write-wins); its size
never exceeds `len(merges)`; and absent collisions the stored ids are
exactly the distinct integers `0, …, len(merges) - 1` in rank order. -/
theorem build_bpe_vocab_spec (merges : List Pair) :
    (build_bpe_vocab merges).length ≤ merges.length ∧
    (∀ (pre : List Pair) (p : Pair) (post : List Pair),
      merges = pre ++ p :: post →
      (∀ q ∈ post, q.1 ++ q.2 ≠ p.1 ++ p.2) →
      vlookup (build_bpe_vocab merges) (p.1 ++ p.2) = some pre.length) ∧
    ((merges.map (fun p => p.1 ++ p.2)).Nodup →
      (build_bpe_vocab merges).map Prod.snd = List.range merges.length) := by
  refine ⟨?_, ?_, ?_⟩
  · have := buildVocabFrom_length_le merges 0 []
    simpa [build_bpe_vocab] using this
  · intro pre p post heq hfresh
    subst heq
    rw [build_bpe_vocab, buildVocabFrom_append, buildVocabFrom]
    rw [buildVocabFrom_vlookup_skip post _ _ _ hfresh]
    rw [vlookup_dictInsert_self]
    simp
  · intro hnd
    rw [build_bpe_vocab, buildVocabFrom_fresh merges 0 [] (by simp) hnd]
    rw [List.nil_append, rankedFrom_snd, List.range_eq_range']

/-- Witness for C7 (second conjunct) at `merges = [("a","b"), ("c","d")]`:
the rule at rank 1 maps `"cd"` to 1. -/
theorem build_bpe_vocab_spec_witness :
    vlookup (build_bpe_vocab [("a", "b"), ("c", "d")]) ("c" ++ "d") = some 1 :=
  (build_bpe_vocab_spec [("a", "b"), ("c", "d")]).2.1
    [("a", "b")] ("c", "d") [] rfl (by decide)

/-- Claim C8: for every word (including the empty string) and every merges
list, `encode_word` returns at least one symbol, and some returned symbol
contains the end-of-word marker `</w>` — standalone or fused inside a
larger merged symbol. -/
theorem encode_word_includes_marker (word : String) (merges : List Pair) :
    1 ≤ (encode_word word merges).length ∧
    ∃ s ∈ encode_word word merges, "</w>".toList <:+: s.toList := by
  have hne : prepare_word word ≠ [] := by
    simp [prepare_word]
  have hmark : ∃ s ∈ prepare_word word, "</w>".toList <:+: s.toList := by
    refine ⟨"</w>", ?_, ⟨[], [], by simp⟩⟩
    simp [prepare_word]
  obtain ⟨h1, h2⟩ := encodeLoop_preserves merges (prepare_word word) hne hmark
  rw [encode_word]
  exact ⟨List.length_pos.mpr h1, h2⟩

/-- Claim C9: termination of `encode_word`'s `while True` loop.  The
fuel-indexed loop `encodeSteps` reaches a normal break (returns `some`)
within any fuel larger than the prepared word's length — each non-final
iteration merges a present pair and strictly shrinks the word — and its
result is exactly `encode_word`'s. -/
theorem encode_word_terminates (word : String) (merges : List Pair) (fuel : Nat)
    (h : (prepare_word word).length < fuel) :
    encodeSteps merges fuel (prepare_word word) = some (encode_word word merges) := by
  rw [encode_word]
  exact encodeSteps_eq merges fuel (prepare_word word) h

/-- Witness for C9 at `word = "ab"`, `merges = []`, `fuel = 4`. -/
theorem encode_word_terminates_witness :
    encodeSteps [] 4 (prepare_word "ab") = some (encode_word "ab" []) :=
  encode_word_terminates "ab" [] 4 (by decide)

/-- Claim C10: `merge_pair` preserves the underlying text — same number of
words in the same order, and each word's symbol concatenation is unchanged;
consequently each word of `byte_pair_encoding`'s final corpus concatenates
to the original word followed by `</w>`. -/
theorem merge_preserves_text (corpus : List (List String)) (pair : Pair)
    (words : List String) (n : Int) :
    ((merge_pair corpus pair).length = corpus.length ∧
      ∀ i : Nat, ((merge_pair corpus pair)[i]?).map textOf = (corpus[i]?).map textOf) ∧
    (∃ fc ms, byte_pair_encoding words n = Except.ok (fc, ms) ∧
      fc.length = words.length ∧
      ∀ i : Nat, (fc[i]?).map textOf =
        (words[i]?).map (fun w => w.toList ++ "</w>".toList)) := by
  refine ⟨⟨merge_pair_length corpus pair, fun i => merge_pair_text corpus pair i⟩, ?_⟩
  obtain ⟨hl, ht⟩ := bpeLoop_corpus_text n.toNat (prepare_corpus words) []
  refine ⟨_, _, rfl, ?_, ?_⟩
  · rw [hl]
    simp [prepare_corpus]
  · intro i
    rw [ht i, prepare_corpus, List.getElem?_map]
    cases words[i]? with
    | none => rfl
    | some w => simp [Option.map, textOf_prepare_word]
